import Mathlib

/-!
Verification of the LRU cache implementation (`src/lru/mod.rs`,
`src/lru/persistent.rs`, `src/error.rs`).

The cache stores key-value pairs in a `HashMap` (`elements`) together with a
`Vec<K>` (`usage_order`) kept in ascending recency order: front = least
recently used, back = most recently used.  The `HashMap` is modelled by an
association list with unique keys; `HashMap::insert` replaces the value of an
existing key in place, `HashMap::remove` deletes the entry, `HashMap::len`
is the number of entries.  `Vec` operations are modelled by the corresponding
list operations (`remove(pos)` = `eraseIdx pos`, `push` = `++ [·]`,
`first()` = `head?`).
-/

set_option autoImplicit false
set_option linter.unusedSectionVars false

namespace LruCache

variable {K V : Type} [DecidableEq K]

/-- Model of `HashMap::get` on the association-list representation:
the value of the first entry whose key matches, if any. -/
def mapLookup : List (K × V) → K → Option V
  | [], _ => none
  | (k, v) :: rest, key => if k = key then some v else mapLookup rest key

/-- Model of `HashMap::contains_key`. -/
def mapContains (m : List (K × V)) (key : K) : Bool :=
  (mapLookup m key).isSome

/-- Model of `HashMap::insert`: replaces the value of an existing key in
place, otherwise appends a fresh entry. -/
def mapInsert : List (K × V) → K → V → List (K × V)
  | [], key, value => [(key, value)]
  | (k, v) :: rest, key, value =>
    if k = key then (key, value) :: rest else (k, v) :: mapInsert rest key value

/-- Model of `HashMap::remove` (drops the entry of the key, if present). -/
def mapRemove : List (K × V) → K → List (K × V)
  | [], _ => []
  | (k, v) :: rest, key => if k = key then rest else (k, v) :: mapRemove rest key

/-- Model of `Vec::iter().position(|k| k == key)` in
`move_to_recently_used`: index of the first occurrence of `key`. -/
def vecPosition (key : K) : List K → Option Nat
  | [] => none
  | k :: rest => if k = key then some 0 else (vecPosition key rest).map (· + 1)

/-- `Cache<K, V>` from `src/lru/mod.rs`: capacity bound, the key-value map
`elements` and the recency vector `usage_order` (least recently used first). -/
structure Cache (K V : Type) where
  capacity : Nat
  elements : List (K × V)
  usage_order : List K
  deriving DecidableEq, Repr

namespace Cache

/-- `Cache::new` for a capacity that passed the zero check: empty map and
empty usage order. -/
def new (K V : Type) (capacity : Nat) : Cache K V :=
  { capacity := capacity, elements := [], usage_order := [] }

/-- `Cache::new` including its panic behaviour: `none` models the
`panic!("La capacité du cache doit être supérieure à 0")` on capacity 0. -/
def new? (K V : Type) (capacity : Nat) : Option (Cache K V) :=
  if capacity = 0 then none else some (new K V capacity)

/-- `Cache::move_to_recently_used`: find the position of `key` in
`usage_order`, remove it there and push it to the back.  (`Vec::remove(pos)`
returns the element at `pos`, which the search predicate guarantees equals
`key`.) -/
def move_to_recently_used (c : Cache K V) (key : K) : Cache K V :=
  match vecPosition key c.usage_order with
  | some pos => { c with usage_order := c.usage_order.eraseIdx pos ++ [key] }
  | none => c

/-- `Cache::len`: the number of entries of the map. -/
def len (c : Cache K V) : Nat :=
  c.elements.length

/-- `Cache::is_empty`. -/
def is_empty (c : Cache K V) : Bool :=
  c.elements.isEmpty

/-- `Cache::clear`: empties both the map and the usage order. -/
def clear (c : Cache K V) : Cache K V :=
  { c with elements := [], usage_order := [] }

/-- `Cache::iter`: walks `usage_order` and yields each key paired with its
value in the map, skipping keys without an entry
(`filter_map` over `usage_order`). -/
def iter (c : Cache K V) : List (K × V) :=
  c.usage_order.filterMap fun key =>
    (mapLookup c.elements key).map fun value => (key, value)

/-- `CacheTrait::get` for `Cache`: on a hit, bump the key to the
most-recently-used end and return its value; on a miss return `None` and
leave the cache untouched.  Returns the updated cache with the result. -/
def get (c : Cache K V) (key : K) : Cache K V × Option V :=
  if mapContains c.elements key = true then
    let c' := move_to_recently_used c key
    (c', mapLookup c'.elements key)
  else
    (c, none)

/-- First block of `CacheTrait::put`: when the map is at (or beyond)
capacity and the key is new, evict the entry whose key is at the front of
`usage_order` (`first()`), removing it from the map and from the vector
(`remove(0)`). -/
def putEvict (c : Cache K V) (key : K) : Cache K V :=
  if c.capacity ≤ c.elements.length ∧ mapContains c.elements key = false then
    match c.usage_order.head? with
    | some lru_key =>
      { c with
        elements := mapRemove c.elements lru_key,
        usage_order := c.usage_order.eraseIdx 0 }
    | none => c
  else c

/-- Second block of `CacheTrait::put`: update an existing key (and bump it
to the most-recently-used end) or append the new entry. -/
def putInsert (c1 : Cache K V) (key : K) (value : V) : Cache K V :=
  if mapContains c1.elements key = true then
    move_to_recently_used { c1 with elements := mapInsert c1.elements key value } key
  else
    { c1 with elements := mapInsert c1.elements key value,
              usage_order := c1.usage_order ++ [key] }

/-- `CacheTrait::put` for `Cache`: the eviction block followed by the
insert/update block, exactly as in the source. -/
def put (c : Cache K V) (key : K) (value : V) : Cache K V :=
  putInsert (putEvict c key) key value

end Cache

/-! ### Association-list lemmas (model of the `HashMap` operations) -/

theorem mapLookup_mapInsert (m : List (K × V)) (key q : K) (v : V) :
    mapLookup (mapInsert m key v) q = if key = q then some v else mapLookup m q := by
  induction m with
  | nil => simp [mapInsert, mapLookup]
  | cons kv rest ih =>
    obtain ⟨k, w⟩ := kv
    by_cases hk : k = key
    · subst hk
      by_cases hq : k = q <;> simp [mapInsert, mapLookup, hq]
    · have hk' : ¬ key = k := fun h => hk h.symm
      by_cases hq : k = q
      · subst hq
        simp [mapInsert, if_neg hk, mapLookup, hk']
      · simp [mapInsert, if_neg hk, mapLookup, if_neg hq, ih]

theorem mapContains_mapInsert (m : List (K × V)) (key q : K) (v : V) :
    mapContains (mapInsert m key v) q = (decide (key = q) || mapContains m q) := by
  by_cases h : key = q <;> simp [mapContains, mapLookup_mapInsert, h]

theorem mapInsert_of_not_contains (m : List (K × V)) (key : K) (v : V)
    (h : mapContains m key = false) : mapInsert m key v = m ++ [(key, v)] := by
  induction m with
  | nil => simp [mapInsert]
  | cons kv rest ih =>
    obtain ⟨k, w⟩ := kv
    simp only [mapContains, mapLookup] at h
    by_cases hk : k = key
    · simp [hk] at h
    · simp only [mapInsert, if_neg hk, List.cons_append, List.cons.injEq, true_and]
      exact ih (by simpa [mapContains, if_neg hk] using h)

theorem length_mapInsert (m : List (K × V)) (key : K) (v : V) :
    (mapInsert m key v).length =
      if mapContains m key = true then m.length else m.length + 1 := by
  induction m with
  | nil => simp [mapInsert, mapContains, mapLookup]
  | cons kv rest ih =>
    obtain ⟨k, w⟩ := kv
    by_cases hk : k = key
    · simp [mapInsert, hk, mapContains, mapLookup]
    · simp only [mapInsert, if_neg hk, List.length_cons, ih, mapContains, mapLookup]
      by_cases hc : (mapLookup rest key).isSome = true <;>
        simp [hc, if_neg hk, mapContains]

theorem keys_mapInsert (m : List (K × V)) (key : K) (v : V) :
    (mapInsert m key v).map Prod.fst =
      if mapContains m key = true then m.map Prod.fst
      else m.map Prod.fst ++ [key] := by
  induction m with
  | nil => simp [mapInsert, mapContains, mapLookup]
  | cons kv rest ih =>
    obtain ⟨k, w⟩ := kv
    by_cases hk : k = key
    · simp [mapInsert, hk, mapContains, mapLookup]
    · simp only [mapInsert, if_neg hk, List.map_cons, ih, mapContains, mapLookup]
      by_cases hc : (mapLookup rest key).isSome = true <;>
        simp [hc, if_neg hk, mapContains]

theorem mapContains_iff_mem_keys (m : List (K × V)) (key : K) :
    mapContains m key = true ↔ key ∈ m.map Prod.fst := by
  induction m with
  | nil => simp [mapContains, mapLookup]
  | cons kv rest ih =>
    obtain ⟨k, w⟩ := kv
    by_cases hk : k = key
    · simp [mapContains, mapLookup, hk]
    · have hk' : ¬ key = k := fun h => hk h.symm
      have hstep : mapContains ((k, w) :: rest) key = mapContains rest key := by
        simp [mapContains, mapLookup, if_neg hk]
      rw [hstep]
      simp [ih, hk']

theorem mapRemove_of_not_contains (m : List (K × V)) (key : K)
    (h : mapContains m key = false) : mapRemove m key = m := by
  induction m with
  | nil => simp [mapRemove]
  | cons kv rest ih =>
    obtain ⟨k, w⟩ := kv
    by_cases hk : k = key
    · simp [mapContains, mapLookup, hk] at h
    · simp only [mapRemove, if_neg hk, List.cons.injEq, true_and]
      exact ih (by simpa [mapContains, mapLookup, if_neg hk] using h)

theorem keys_mapRemove (m : List (K × V)) (key : K) :
    (mapRemove m key).map Prod.fst = (m.map Prod.fst).erase key := by
  induction m with
  | nil => simp [mapRemove]
  | cons kv rest ih =>
    obtain ⟨k, w⟩ := kv
    by_cases hk : k = key
    · subst hk
      simp [mapRemove, List.erase_cons_head]
    · simp [mapRemove, if_neg hk, List.erase_cons_tail, ih, hk]

theorem length_mapRemove_of_contains (m : List (K × V)) (key : K)
    (h : mapContains m key = true) :
    (mapRemove m key).length + 1 = m.length := by
  induction m with
  | nil => simp [mapContains, mapLookup] at h
  | cons kv rest ih =>
    obtain ⟨k, w⟩ := kv
    by_cases hk : k = key
    · simp [mapRemove, hk]
    · simp only [mapRemove, if_neg hk, List.length_cons]
      rw [ih (by simpa [mapContains, mapLookup, if_neg hk] using h)]

theorem mapLookup_eq_none_of_not_mem (m : List (K × V)) (key : K)
    (h : key ∉ m.map Prod.fst) : mapLookup m key = none := by
  cases hl : mapLookup m key with
  | none => rfl
  | some v =>
    exact absurd ((mapContains_iff_mem_keys m key).mp (by simp [mapContains, hl])) h

theorem mapLookup_mapRemove (m : List (K × V)) (key q : K)
    (hnd : (m.map Prod.fst).Nodup) :
    mapLookup (mapRemove m key) q = if key = q then none else mapLookup m q := by
  induction m with
  | nil => simp [mapRemove, mapLookup]
  | cons kv rest ih =>
    obtain ⟨k, w⟩ := kv
    simp only [List.map_cons, List.nodup_cons] at hnd
    by_cases hk : k = key
    · simp only [mapRemove, if_pos hk]
      by_cases hq : key = q
      · rw [if_pos hq]
        exact mapLookup_eq_none_of_not_mem rest q (by rw [← hq, ← hk]; exact hnd.1)
      · have hkq : ¬ k = q := by rw [hk]; exact hq
        rw [if_neg hq]
        simp [mapLookup, if_neg hkq]
    · have hq' : k = q → ¬ key = q := fun hkq heq => hk (heq ▸ hkq)
      by_cases hq : k = q
      · simp only [mapRemove, if_neg hk, mapLookup, if_pos hq, if_neg (hq' hq)]
      · simp [mapRemove, if_neg hk, mapLookup, if_neg hq, ih hnd.2]

theorem mapLookup_eq_some_mem (m : List (K × V)) (key : K) (v : V)
    (h : mapLookup m key = some v) : (key, v) ∈ m := by
  induction m with
  | nil => simp [mapLookup] at h
  | cons kv rest ih =>
    obtain ⟨k, w⟩ := kv
    by_cases hk : k = key
    · subst hk
      have hw : w = v := by simpa [mapLookup] using h
      subst hw
      exact List.mem_cons_self _ _
    · simp only [mapLookup, if_neg hk] at h
      exact List.mem_cons_of_mem _ (ih h)

theorem mapLookup_of_mem (m : List (K × V)) (key : K) (v : V)
    (hnd : (m.map Prod.fst).Nodup) (h : (key, v) ∈ m) :
    mapLookup m key = some v := by
  induction m with
  | nil => simp at h
  | cons kv rest ih =>
    obtain ⟨k, w⟩ := kv
    simp only [List.map_cons, List.nodup_cons] at hnd
    rcases List.mem_cons.mp h with heq | hmem
    · obtain ⟨h1, h2⟩ := Prod.ext_iff.mp heq
      simp only [] at h1 h2
      simp [mapLookup, ← h1, ← h2]
    · have hk : k ≠ key := by
        rintro rfl
        exact hnd.1 (List.mem_map.mpr ⟨(k, v), hmem, rfl⟩)
      simp [mapLookup, if_neg hk, ih hnd.2 hmem]

theorem mapRemove_subset (m : List (K × V)) (key : K) {kv : K × V}
    (h : kv ∈ mapRemove m key) : kv ∈ m := by
  induction m with
  | nil => simp [mapRemove] at h
  | cons hd rest ih =>
    obtain ⟨k, w⟩ := hd
    by_cases hk : k = key
    · rw [show mapRemove ((k, w) :: rest) key = rest by simp [mapRemove, hk]] at h
      exact List.mem_cons_of_mem _ h
    · rw [show mapRemove ((k, w) :: rest) key = (k, w) :: mapRemove rest key by
        simp [mapRemove, hk]] at h
      rcases List.mem_cons.mp h with heq | hmem
      · exact heq ▸ List.mem_cons_self _ _
      · exact List.mem_cons_of_mem _ (ih hmem)

theorem mapContains_false_iff (m : List (K × V)) (key : K) :
    mapContains m key = false ↔ key ∉ m.map Prod.fst := by
  rw [← mapContains_iff_mem_keys]
  cases h : mapContains m key <;> simp [h]

/-! ### `Vec::iter().position` and `move_to_recently_used` -/

theorem vecPosition_eq_none_iff (key : K) (l : List K) :
    vecPosition key l = none ↔ key ∉ l := by
  induction l with
  | nil => simp [vecPosition]
  | cons k rest ih =>
    by_cases hk : k = key
    · simp [vecPosition, hk]
    · have hk' : ¬ key = k := fun h => hk h.symm
      simp [vecPosition, if_neg hk, hk', ih]

theorem eraseIdx_vecPosition (key : K) (l : List K) (pos : Nat)
    (h : vecPosition key l = some pos) : l.eraseIdx pos = l.erase key := by
  induction l generalizing pos with
  | nil => simp [vecPosition] at h
  | cons k rest ih =>
    by_cases hk : k = key
    · simp only [vecPosition, if_pos hk, Option.some.injEq] at h
      subst hk
      rw [← h, List.erase_cons_head]
      rfl
    · simp only [vecPosition, if_neg hk] at h
      rcases hrec : vecPosition key rest with _ | q
      · rw [hrec] at h
        simp at h
      · rw [hrec] at h
        simp only [Option.map, Option.bind] at h
        injection h with h
        subst h
        rw [List.erase_cons_tail (by simpa using hk)]
        simp [List.eraseIdx, ih q hrec]

theorem vecPosition_isSome_of_mem (key : K) (l : List K) (h : key ∈ l) :
    ∃ pos, vecPosition key l = some pos := by
  cases hp : vecPosition key l with
  | none => exact absurd ((vecPosition_eq_none_iff key l).mp hp) (by simpa using h)
  | some pos => exact ⟨pos, rfl⟩

namespace Cache

theorem move_to_recently_used_elements (c : Cache K V) (key : K) :
    (move_to_recently_used c key).elements = c.elements := by
  unfold move_to_recently_used
  cases vecPosition key c.usage_order <;> rfl

theorem move_to_recently_used_capacity (c : Cache K V) (key : K) :
    (move_to_recently_used c key).capacity = c.capacity := by
  unfold move_to_recently_used
  cases vecPosition key c.usage_order <;> rfl

theorem move_to_recently_used_of_mem (c : Cache K V) (key : K)
    (h : key ∈ c.usage_order) :
    (move_to_recently_used c key).usage_order = c.usage_order.erase key ++ [key] := by
  obtain ⟨pos, hpos⟩ := vecPosition_isSome_of_mem key c.usage_order h
  unfold move_to_recently_used
  rw [hpos]
  simp [eraseIdx_vecPosition key c.usage_order pos hpos]

theorem move_to_recently_used_eq_of_mem (c : Cache K V) (key : K)
    (h : key ∈ c.usage_order) :
    move_to_recently_used c key =
      { c with usage_order := c.usage_order.erase key ++ [key] } := by
  obtain ⟨pos, hpos⟩ := vecPosition_isSome_of_mem key c.usage_order h
  unfold move_to_recently_used
  rw [hpos]
  dsimp only
  rw [eraseIdx_vecPosition key c.usage_order pos hpos]

theorem move_to_recently_used_of_not_mem (c : Cache K V) (key : K)
    (h : key ∉ c.usage_order) : move_to_recently_used c key = c := by
  unfold move_to_recently_used
  rw [(vecPosition_eq_none_iff key c.usage_order).mpr h]

end Cache

/-! ### The structural invariant of a well-formed cache

`WF c` packages the core invariant of §3 of the design: no duplicate keys in
`usage_order`, no duplicate keys in the map, the keys of the map and of
`usage_order` coincide, and the entry count never exceeds the capacity.
All quantifiers are bounded, so `WF` is decidable on concrete caches. -/

def WF (c : Cache K V) : Prop :=
  c.usage_order.Nodup ∧
  (c.elements.map Prod.fst).Nodup ∧
  (∀ k ∈ c.usage_order, mapContains c.elements k = true) ∧
  (∀ kv ∈ c.elements, kv.1 ∈ c.usage_order) ∧
  c.elements.length ≤ c.capacity

instance (c : Cache K V) : Decidable (WF c) := by
  unfold WF
  infer_instance

theorem WF.mem_usage_of_contains {c : Cache K V} (hwf : WF c) {key : K}
    (h : mapContains c.elements key = true) : key ∈ c.usage_order := by
  obtain ⟨v, hv⟩ := Option.isSome_iff_exists.mp (by simpa [mapContains] using h)
  exact hwf.2.2.2.1 (key, v) (mapLookup_eq_some_mem _ _ _ hv)

theorem WF.contains_of_mem_usage {c : Cache K V} (hwf : WF c) {key : K}
    (h : key ∈ c.usage_order) : mapContains c.elements key = true :=
  hwf.2.2.1 key h

namespace Cache

/-! ### Characterization of `get` -/

theorem get_miss (c : Cache K V) (key : K)
    (h : mapContains c.elements key = false) : get c key = (c, none) := by
  simp [get, h]

theorem get_fst_elements (c : Cache K V) (key : K) :
    (get c key).1.elements = c.elements := by
  unfold get
  split
  · exact move_to_recently_used_elements c key
  · rfl

theorem get_fst_capacity (c : Cache K V) (key : K) :
    (get c key).1.capacity = c.capacity := by
  unfold get
  split
  · exact move_to_recently_used_capacity c key
  · rfl

theorem get_hit_snd (c : Cache K V) (key : K)
    (h : mapContains c.elements key = true) :
    (get c key).2 = mapLookup c.elements key := by
  unfold get
  rw [if_pos h]
  exact congrArg (fun m => mapLookup m key) (move_to_recently_used_elements c key)

theorem get_hit_usage (c : Cache K V) (key : K)
    (hmem : key ∈ c.usage_order) (h : mapContains c.elements key = true) :
    (get c key).1.usage_order = c.usage_order.erase key ++ [key] := by
  unfold get
  rw [if_pos h]
  exact move_to_recently_used_of_mem c key hmem

/-! ### Characterization of `put` -/

theorem putEvict_of_no_evict (c : Cache K V) (key : K)
    (h : ¬(c.capacity ≤ c.elements.length ∧ mapContains c.elements key = false)) :
    putEvict c key = c := by
  simp [putEvict, h]

theorem putEvict_of_evict (c : Cache K V) (key lru : K) (rest : List K)
    (husage : c.usage_order = lru :: rest)
    (hfull : c.capacity ≤ c.elements.length)
    (habsent : mapContains c.elements key = false) :
    putEvict c key =
      { c with elements := mapRemove c.elements lru, usage_order := rest } := by
  unfold putEvict
  rw [if_pos ⟨hfull, habsent⟩, husage]
  rfl

theorem put_update (c : Cache K V) (key : K) (value : V) (hwf : WF c)
    (h : mapContains c.elements key = true) :
    put c key value =
      { c with elements := mapInsert c.elements key value,
               usage_order := c.usage_order.erase key ++ [key] } := by
  have hev : putEvict c key = c :=
    putEvict_of_no_evict c key (by simp [h])
  have hmem : key ∈ c.usage_order := hwf.mem_usage_of_contains h
  unfold put putInsert
  rw [hev, if_pos h]
  have hmem' : key ∈ ({ c with elements := mapInsert c.elements key value } :
      Cache K V).usage_order := hmem
  rw [move_to_recently_used_eq_of_mem _ key hmem']

theorem put_fresh_room (c : Cache K V) (key : K) (value : V)
    (h : mapContains c.elements key = false)
    (hroom : c.elements.length < c.capacity) :
    put c key value =
      { c with elements := c.elements ++ [(key, value)],
               usage_order := c.usage_order ++ [key] } := by
  have hev : putEvict c key = c :=
    putEvict_of_no_evict c key (by intro hc; exact absurd hc.1 (by omega))
  unfold put putInsert
  rw [hev, if_neg (by simp [h]), mapInsert_of_not_contains c.elements key value h]

theorem put_fresh_full (c : Cache K V) (key lru : K) (rest : List K)
    (value : V)
    (husage : c.usage_order = lru :: rest)
    (h : mapContains c.elements key = false)
    (hfull : c.capacity ≤ c.elements.length) :
    put c key value =
      { c with elements := mapRemove c.elements lru ++ [(key, value)],
               usage_order := rest ++ [key] } := by
  have hev := putEvict_of_evict c key lru rest husage hfull h
  have habs : mapContains (mapRemove c.elements lru) key = false := by
    rw [mapContains_false_iff] at h ⊢
    rw [keys_mapRemove]
    intro hmem
    exact h (List.mem_of_mem_erase hmem)
  unfold put putInsert
  rw [hev]
  rw [if_neg (by simp [habs]), mapInsert_of_not_contains _ key value habs]

end Cache

theorem WF.length_eq {c : Cache K V} (hwf : WF c) :
    c.elements.length = c.usage_order.length := by
  have hperm : (c.elements.map Prod.fst).Perm c.usage_order := by
    apply List.perm_of_nodup_nodup_toFinset_eq hwf.2.1 hwf.1
    ext k
    simp only [List.mem_toFinset]
    constructor
    · intro hk
      exact hwf.mem_usage_of_contains ((mapContains_iff_mem_keys _ _).mpr hk)
    · intro hk
      exact (mapContains_iff_mem_keys _ _).mp (hwf.contains_of_mem_usage hk)
  simpa using hperm.length_eq

/-! ### Preservation of the invariant by the public operations -/

theorem wf_new (capacity : Nat) : WF (Cache.new K V capacity) := by
  constructor <;> simp [Cache.new, List.Nodup]

theorem wf_clear (c : Cache K V) : WF (Cache.clear c) := by
  constructor <;> simp [Cache.clear, List.Nodup]

theorem erased_usage_wf {c : Cache K V} (hwf : WF c) {key : K}
    (hmem : key ∈ c.usage_order) (m : List (K × V))
    (hkeys : m.map Prod.fst = c.elements.map Prod.fst)
    (hlen : m.length ≤ c.capacity) :
    WF { c with elements := m, usage_order := c.usage_order.erase key ++ [key] } := by
  obtain ⟨hnd, hknd, husage, hkeys', hle⟩ := hwf
  have hkey_not_erase : key ∉ c.usage_order.erase key := by
    intro hk
    exact absurd (hnd.mem_erase_iff.mp hk).1 (by simp)
  refine ⟨?_, ?_, ?_, ?_, hlen⟩
  · exact List.Nodup.append (hnd.erase key) (by simp) (by
      rw [List.disjoint_singleton]
      exact hkey_not_erase)
  · rw [hkeys]; exact hknd
  · intro k hk
    have hgoal : mapContains m k = true := by
      rw [mapContains_iff_mem_keys, hkeys, ← mapContains_iff_mem_keys]
      rcases List.mem_append.mp hk with hk | hk
      · exact husage k (List.mem_of_mem_erase hk)
      · simp only [List.mem_singleton] at hk
        subst hk
        exact husage k hmem
    exact hgoal
  · intro kv hkv
    have h1 : kv.1 ∈ m.map Prod.fst := List.mem_map_of_mem Prod.fst hkv
    rw [hkeys] at h1
    have h2 : kv.1 ∈ c.usage_order := by
      rcases List.mem_map.mp h1 with ⟨ab, hab, heq⟩
      rw [← heq]
      exact hkeys' ab hab
    by_cases hkk : kv.1 = key
    · simp [hkk]
    · exact List.mem_append.mpr (Or.inl (hnd.mem_erase_iff.mpr ⟨hkk, h2⟩))

theorem wf_move_to_recently_used {c : Cache K V} (hwf : WF c) (key : K) :
    WF (Cache.move_to_recently_used c key) := by
  by_cases hmem : key ∈ c.usage_order
  · rw [Cache.move_to_recently_used_eq_of_mem c key hmem]
    exact erased_usage_wf hwf hmem c.elements rfl hwf.2.2.2.2
  · rw [Cache.move_to_recently_used_of_not_mem c key hmem]
    exact hwf

theorem wf_get {c : Cache K V} (hwf : WF c) (key : K) :
    WF (Cache.get c key).1 := by
  by_cases h : mapContains c.elements key = true
  · unfold Cache.get
    rw [if_pos h]
    exact wf_move_to_recently_used hwf key
  · rw [Cache.get_miss c key (by simpa using h)]
    exact hwf

theorem wf_put {c : Cache K V} (hwf : WF c) (hcap : 0 < c.capacity)
    (key : K) (value : V) : WF (Cache.put c key value) := by
  by_cases h : mapContains c.elements key = true
  · rw [Cache.put_update c key value hwf h]
    have hkeys : (mapInsert c.elements key value).map Prod.fst =
        c.elements.map Prod.fst := by
      rw [keys_mapInsert, if_pos h]
    have hlen : (mapInsert c.elements key value).length ≤ c.capacity := by
      rw [length_mapInsert, if_pos h]
      exact hwf.2.2.2.2
    exact erased_usage_wf hwf (hwf.mem_usage_of_contains h) _ hkeys hlen
  · have h' : mapContains c.elements key = false := by simpa using h
    have hkey_usage : key ∉ c.usage_order := by
      intro hk
      rw [hwf.contains_of_mem_usage hk] at h'
      exact Bool.noConfusion h'
    have hkey_keys : key ∉ c.elements.map Prod.fst :=
      (mapContains_false_iff _ _).mp h'
    obtain ⟨hnd, hknd, husage, hkeys', hle⟩ := hwf
    by_cases hroom : c.elements.length < c.capacity
    · rw [Cache.put_fresh_room c key value h' hroom]
      refine ⟨?_, ?_, ?_, ?_, ?_⟩
      · exact List.Nodup.append hnd (by simp) (by
          rw [List.disjoint_singleton]
          exact hkey_usage)
      · rw [List.map_append]
        exact List.Nodup.append hknd (by simp) (by simpa using hkey_keys)
      · intro k hk
        rw [mapContains_iff_mem_keys, List.map_append]
        rcases List.mem_append.mp hk with hk | hk
        · exact List.mem_append.mpr (Or.inl
            ((mapContains_iff_mem_keys _ _).mp (husage k hk)))
        · simp only [List.mem_singleton] at hk
          subst hk
          simp
      · intro kv hkv
        rcases List.mem_append.mp hkv with hkv | hkv
        · exact List.mem_append.mpr (Or.inl (hkeys' kv hkv))
        · simp only [List.mem_singleton] at hkv
          subst hkv
          simp
      · simpa using hroom
    · have hfull : c.capacity ≤ c.elements.length := by omega
      have hlen_eq : c.elements.length = c.usage_order.length :=
        WF.length_eq ⟨hnd, hknd, husage, hkeys', hle⟩
      have husnonnil : c.usage_order ≠ [] := by
        intro hnil
        have h0 : c.elements.length = 0 := by
          rw [hlen_eq, hnil]
          rfl
        omega
      obtain ⟨lru, rest, hur⟩ := List.exists_cons_of_ne_nil husnonnil
      rw [Cache.put_fresh_full c key lru rest value hur h' hfull]
      have hlru_mem : lru ∈ c.usage_order := by rw [hur]; simp
      have hlru_keys : lru ∈ c.elements.map Prod.fst :=
        (mapContains_iff_mem_keys _ _).mp (husage lru hlru_mem)
      have hrest_nd : rest.Nodup := by
        rw [hur] at hnd
        exact (List.nodup_cons.mp hnd).2
      have hlru_rest : lru ∉ rest := by
        rw [hur] at hnd
        exact (List.nodup_cons.mp hnd).1
      have hkey_rest : key ∉ rest := by
        intro hk
        exact hkey_usage (by rw [hur]; exact List.mem_cons_of_mem _ hk)
      refine ⟨?_, ?_, ?_, ?_, ?_⟩
      · exact List.Nodup.append hrest_nd (by simp) (by
          rw [List.disjoint_singleton]
          exact hkey_rest)
      · rw [List.map_append, keys_mapRemove]
        refine List.Nodup.append (hknd.erase lru) (by simp) ?_
        have hgoal : key ∉ (List.map Prod.fst c.elements).erase lru := by
          intro hk
          exact hkey_keys (List.mem_of_mem_erase hk)
        simpa using hgoal
      · intro k hk
        rw [mapContains_iff_mem_keys, List.map_append, keys_mapRemove]
        rcases List.mem_append.mp hk with hk | hk
        · have hkne : k ≠ lru := by
            intro hkeq
            exact hlru_rest (hkeq ▸ hk)
          have hkmem : k ∈ c.elements.map Prod.fst :=
            (mapContains_iff_mem_keys _ _).mp
              (husage k (by rw [hur]; exact List.mem_cons_of_mem _ hk))
          exact List.mem_append.mpr (Or.inl (hknd.mem_erase_iff.mpr ⟨hkne, hkmem⟩))
        · simp only [List.mem_singleton] at hk
          subst hk
          simp
      · intro kv hkv
        rcases List.mem_append.mp hkv with hkv | hkv
        · have h1 : kv.1 ∈ (mapRemove c.elements lru).map Prod.fst :=
            List.mem_map_of_mem Prod.fst hkv
          rw [keys_mapRemove] at h1
          have hkne : kv.1 ≠ lru := (hknd.mem_erase_iff.mp h1).1
          have h2 : kv.1 ∈ c.usage_order := hkeys' kv (mapRemove_subset _ _ hkv)
          rw [hur] at h2
          rcases List.mem_cons.mp h2 with heq | hmem
          · exact absurd heq hkne
          · exact List.mem_append.mpr (Or.inl hmem)
        · simp only [List.mem_singleton] at hkv
          subst hkv
          simp
      · have hcont : mapContains c.elements lru = true := husage lru hlru_mem
        have hrem := length_mapRemove_of_contains c.elements lru hcont
        simp only [List.length_append, List.length_singleton]
        omega

/-! ### Sequences of public calls -/

/-- A public call on the cache engine: `get`, `put`, or `clear`. -/
inductive Op (K V : Type) where
  | opGet (key : K)
  | opPut (key : K) (value : V)
  | opClear

/-- Execute one public call (the state after the call completes). -/
def applyOp (c : Cache K V) : Op K V → Cache K V
  | .opGet key => (Cache.get c key).1
  | .opPut key value => Cache.put c key value
  | .opClear => Cache.clear c

/-- Execute a sequence of public calls in order. -/
def run (c : Cache K V) (ops : List (Op K V)) : Cache K V :=
  ops.foldl applyOp c

theorem putEvict_capacity (c : Cache K V) (key : K) :
    (Cache.putEvict c key).capacity = c.capacity := by
  unfold Cache.putEvict
  split
  · split <;> rfl
  · rfl

theorem putInsert_capacity (c1 : Cache K V) (key : K) (value : V) :
    (Cache.putInsert c1 key value).capacity = c1.capacity := by
  unfold Cache.putInsert
  split
  · exact Cache.move_to_recently_used_capacity _ _
  · rfl

theorem put_capacity (c : Cache K V) (key : K) (value : V) :
    (Cache.put c key value).capacity = c.capacity := by
  unfold Cache.put
  rw [putInsert_capacity, putEvict_capacity]

theorem applyOp_capacity (c : Cache K V) (op : Op K V) :
    (applyOp c op).capacity = c.capacity := by
  cases op with
  | opGet key => exact Cache.get_fst_capacity c key
  | opPut key value => exact put_capacity c key value
  | opClear => rfl

theorem wf_applyOp {c : Cache K V} (hwf : WF c) (hcap : 0 < c.capacity)
    (op : Op K V) : WF (applyOp c op) := by
  cases op with
  | opGet key => exact wf_get hwf key
  | opPut key value => exact wf_put hwf hcap key value
  | opClear => exact wf_clear c

theorem wf_run {c : Cache K V} (hwf : WF c) (hcap : 0 < c.capacity)
    (ops : List (Op K V)) : WF (run c ops) := by
  induction ops generalizing c with
  | nil => exact hwf
  | cons op rest ih =>
    have hcap' : 0 < (applyOp c op).capacity := by rw [applyOp_capacity]; exact hcap
    exact ih (wf_applyOp hwf hcap op) hcap'

theorem run_capacity (c : Cache K V) (ops : List (Op K V)) :
    (run c ops).capacity = c.capacity := by
  induction ops generalizing c with
  | nil => rfl
  | cons op rest ih =>
    rw [show run c (op :: rest) = run (applyOp c op) rest from rfl, ih,
      applyOp_capacity]

theorem run_append (c : Cache K V) (l1 l2 : List (Op K V)) :
    run c (l1 ++ l2) = run (run c l1) l2 :=
  List.foldl_append _ _ _ _

theorem mapLookup_append (m1 m2 : List (K × V)) (q : K) :
    mapLookup (m1 ++ m2) q =
      match mapLookup m1 q with
      | some v => some v
      | none => mapLookup m2 q := by
  induction m1 with
  | nil => simp [mapLookup]
  | cons kv rest ih =>
    obtain ⟨k, w⟩ := kv
    by_cases hk : k = q <;> simp [mapLookup, hk, ih]

/-- Replaying a sequence of distinct fresh keys through `put` into a cache
with enough room appends both to the map and to the usage order. -/
theorem run_fresh_puts (c : Cache K V) (ks : List K) (f : K → V)
    (hwf : WF c) (hnd : ks.Nodup)
    (hfresh : ∀ k ∈ ks, mapContains c.elements k = false)
    (hlen : c.elements.length + ks.length ≤ c.capacity) :
    run c (ks.map fun k => Op.opPut k (f k)) =
      { c with elements := c.elements ++ ks.map (fun k => (k, f k)),
               usage_order := c.usage_order ++ ks } := by
  induction ks generalizing c with
  | nil => simp [run]
  | cons k ks ih =>
    have hk := hfresh k (by simp)
    have hroom : c.elements.length < c.capacity := by
      simp only [List.length_cons] at hlen
      omega
    have hcap : 0 < c.capacity := by omega
    have hstep : run c ((k :: ks).map fun k => Op.opPut k (f k)) =
        run (Cache.put c k (f k)) (ks.map fun k => Op.opPut k (f k)) := rfl
    have hput := Cache.put_fresh_room c k (f k) hk hroom
    have hwf' : WF (Cache.put c k (f k)) := wf_put hwf hcap k (f k)
    rw [hput] at hwf'
    rw [hstep, hput, ih _ hwf' (List.nodup_cons.mp hnd).2 ?fresh ?len]
    · simp
    case fresh =>
      intro q hq
      have hqk : ¬ k = q := by
        intro hkq
        exact (List.nodup_cons.mp hnd).1 (hkq ▸ hq)
      have hq' := hfresh q (List.mem_cons_of_mem _ hq)
      simp only [mapContains, mapLookup_append] at *
      rcases hlook : mapLookup c.elements q with _ | v
      · simp only [hlook] at *
        simp [mapLookup, if_neg hqk]
      · rw [hlook] at hq'
        simp at hq'
    case len =>
      show (c.elements ++ [(k, f k)]).length + ks.length ≤ c.capacity
      simp only [List.length_append, List.length_singleton]
      simp only [List.length_cons] at hlen
      omega

/-! ### Claim C1 -/

/-- C1: for every cache produced by `new(capacity)` with `capacity > 0` and
every sequence of `get`, `put`, and `clear` calls, after each call completes
the number of entries in the key-value map equals the length of the recency
sequence `usage_order`, that common size is at most `capacity`, and
`usage_order` contains no duplicate keys — every resident key appears in it
exactly once. -/
theorem C1_state_invariant (K V : Type) [DecidableEq K] (capacity : Nat)
    (hcap : 0 < capacity) (ops : List (Op K V)) :
    (run (Cache.new K V capacity) ops).elements.length =
      (run (Cache.new K V capacity) ops).usage_order.length ∧
    (run (Cache.new K V capacity) ops).elements.length ≤ capacity ∧
    (run (Cache.new K V capacity) ops).usage_order.Nodup ∧
    ∀ k, mapContains (run (Cache.new K V capacity) ops).elements k = true →
      (run (Cache.new K V capacity) ops).usage_order.count k = 1 := by
  have hwf : WF (run (Cache.new K V capacity) ops) :=
    wf_run (wf_new capacity) hcap ops
  have hcapeq : (run (Cache.new K V capacity) ops).capacity = capacity :=
    run_capacity _ _
  refine ⟨hwf.length_eq, ?_, hwf.1, ?_⟩
  · have hle := hwf.2.2.2.2
    rw [hcapeq] at hle
    exact hle
  · intro k hk
    exact List.count_eq_one_of_mem hwf.1 (hwf.mem_usage_of_contains hk)

/-- Concrete instantiation of C1: capacity 2 and the call sequence
put 1, put 2, get 1, put 3, with the hypothesis discharged. -/
theorem C1_state_invariant_witness :
    0 < 2 ∧
    ((run (Cache.new Nat Nat 2)
        [Op.opPut 1 10, Op.opPut 2 20, Op.opGet 1, Op.opPut 3 30]).elements.length =
      (run (Cache.new Nat Nat 2)
        [Op.opPut 1 10, Op.opPut 2 20, Op.opGet 1, Op.opPut 3 30]).usage_order.length ∧
    (run (Cache.new Nat Nat 2)
        [Op.opPut 1 10, Op.opPut 2 20, Op.opGet 1, Op.opPut 3 30]).elements.length ≤ 2 ∧
    (run (Cache.new Nat Nat 2)
        [Op.opPut 1 10, Op.opPut 2 20, Op.opGet 1, Op.opPut 3 30]).usage_order.Nodup ∧
    ∀ k, mapContains (run (Cache.new Nat Nat 2)
        [Op.opPut 1 10, Op.opPut 2 20, Op.opGet 1, Op.opPut 3 30]).elements k = true →
      (run (Cache.new Nat Nat 2)
        [Op.opPut 1 10, Op.opPut 2 20, Op.opGet 1, Op.opPut 3 30]).usage_order.count k = 1) :=
  ⟨by decide,
   C1_state_invariant Nat Nat 2 (by decide)
     [Op.opPut 1 10, Op.opPut 2 20, Op.opGet 1, Op.opPut 3 30]⟩

theorem keys_map_pair (ks : List K) (f : K → V) :
    ((ks.map fun k => (k, f k)).map Prod.fst) = ks := by
  induction ks with
  | nil => rfl
  | cons k rest ih => simp [ih]

/-! ### Claim C2 -/

/-- C2: a `put` of a new key into a cache at capacity removes exactly the
entry whose key is at the front of `usage_order` (from both the map and the
recency sequence) and then inserts the new entry, leaving `len()` unchanged;
and after `N+1` `put` calls with distinct keys and no intervening `get` into
a capacity-`N` cache, the first-inserted key is absent and all other keys
are present. -/
theorem C2_lru_eviction (K V : Type) [DecidableEq K] (c : Cache K V)
    (key : K) (value : V) (hwf : WF c)
    (hfull : c.elements.length = c.capacity) (hcap : 0 < c.capacity)
    (habsent : mapContains c.elements key = false) :
    (∃ lru rest, c.usage_order = lru :: rest ∧
      Cache.put c key value =
        { c with elements := mapRemove c.elements lru ++ [(key, value)],
                 usage_order := rest ++ [key] } ∧
      mapContains (Cache.put c key value).elements lru = false ∧
      lru ∉ (Cache.put c key value).usage_order ∧
      (Cache.put c key value).elements.length = c.elements.length) ∧
    (∀ (k0 : K) (ks : List K) (f : K → V) (N : Nat),
      (k0 :: ks).Nodup → ks.length = N → 0 < N →
      mapContains (run (Cache.new K V N)
        ((k0 :: ks).map fun k => Op.opPut k (f k))).elements k0 = false ∧
      ∀ k ∈ ks, mapContains (run (Cache.new K V N)
        ((k0 :: ks).map fun k => Op.opPut k (f k))).elements k = true) := by
  constructor
  · have hlen_eq := hwf.length_eq
    have husnonnil : c.usage_order ≠ [] := by
      intro hnil
      have h0 : c.elements.length = 0 := by
        rw [hlen_eq, hnil]
        rfl
      omega
    obtain ⟨lru, rest, hur⟩ := List.exists_cons_of_ne_nil husnonnil
    have hput := Cache.put_fresh_full c key lru rest value hur habsent
      (le_of_eq hfull.symm)
    have hlru_mem : lru ∈ c.usage_order := by rw [hur]; simp
    have hlru_cont : mapContains c.elements lru = true :=
      hwf.contains_of_mem_usage hlru_mem
    have hlru_key : lru ≠ key := by
      intro heq
      rw [heq, habsent] at hlru_cont
      exact Bool.noConfusion hlru_cont
    have hnd := hwf.1
    rw [hur] at hnd
    refine ⟨lru, rest, hur, hput, ?_, ?_, ?_⟩
    · rw [hput]
      show mapContains (mapRemove c.elements lru ++ [(key, value)]) lru = false
      have hkl : ¬ key = lru := fun h => hlru_key h.symm
      simp only [mapContains, mapLookup_append]
      rw [mapLookup_mapRemove c.elements lru lru hwf.2.1]
      simp [mapLookup, hkl]
    · rw [hput]
      show lru ∉ rest ++ [key]
      intro hmem
      rcases List.mem_append.mp hmem with hmem | hmem
      · exact (List.nodup_cons.mp hnd).1 hmem
      · simp only [List.mem_singleton] at hmem
        exact hlru_key hmem
    · rw [hput]
      show (mapRemove c.elements lru ++ [(key, value)]).length = c.elements.length
      have hrem := length_mapRemove_of_contains c.elements lru hlru_cont
      simp only [List.length_append, List.length_singleton]
      omega
  · intro k0 ks f N hnd hkslen hN
    rcases List.eq_nil_or_concat' ks with hnil | ⟨init, last, hconcat⟩
    · rw [hnil] at hkslen
      simp at hkslen
      omega
    subst hconcat
    have hk0 : k0 ∉ init ++ [last] := (List.nodup_cons.mp hnd).1
    have hnd' : (init ++ [last]).Nodup := (List.nodup_cons.mp hnd).2
    have hlast_init : last ∉ init := by
      have hdisj := List.disjoint_of_nodup_append hnd'
      exact List.disjoint_singleton.mp hdisj
    have hk0_init : k0 ∉ init := fun h => hk0 (List.mem_append.mpr (Or.inl h))
    have hk0_last : ¬ k0 = last := fun h =>
      hk0 (List.mem_append.mpr (Or.inr (by simp [h])))
    have hinit_len : init.length + 1 = N := by simpa using hkslen
    have hnd0 : (k0 :: init).Nodup :=
      List.nodup_cons.mpr ⟨hk0_init, hnd'.of_append_left⟩
    have hsplit : (k0 :: (init ++ [last])).map (fun k => Op.opPut k (f k)) =
        ((k0 :: init).map fun k => Op.opPut k (f k)) ++
          [Op.opPut last (f last)] := by
      simp
    rw [hsplit, run_append]
    set s := run (Cache.new K V N) ((k0 :: init).map fun k => Op.opPut k (f k))
      with hsdef
    have hrun : s = ⟨N, (k0 :: init).map (fun k => (k, f k)), k0 :: init⟩ := by
      rw [hsdef, run_fresh_puts (Cache.new K V N) (k0 :: init) f (wf_new N) hnd0
        (fun q _ => rfl) (by simp [Cache.new]; omega)]
      rfl
    have hs_usage : s.usage_order = k0 :: init := by rw [hrun]
    have hs_elems : s.elements = (k0 :: init).map (fun k => (k, f k)) := by rw [hrun]
    have hs_cap : s.capacity = N := by rw [hsdef]; exact run_capacity _ _
    have hwf_s : WF s := by
      rw [hsdef]
      exact wf_run (wf_new N) hN _
    have habsent_s : mapContains s.elements last = false := by
      rw [hs_elems, mapContains_false_iff, keys_map_pair]
      intro hmem
      rcases List.mem_cons.mp hmem with heq | hmem
      · exact hk0_last heq.symm
      · exact hlast_init hmem
    have hfull_s : s.capacity ≤ s.elements.length := by
      rw [hs_cap, hs_elems]
      simp only [List.length_map, List.length_cons]
      omega
    have hput_s := Cache.put_fresh_full s last k0 init (f last) hs_usage
      habsent_s hfull_s
    have hwf_r : WF (Cache.put s last (f last)) :=
      wf_put hwf_s (by rw [hs_cap]; exact hN) last (f last)
    constructor
    · show mapContains (Cache.put s last (f last)).elements k0 = false
      cases hc : mapContains (Cache.put s last (f last)).elements k0 with
      | false => rfl
      | true =>
        have hmem := hwf_r.mem_usage_of_contains hc
        rw [hput_s] at hmem
        have hmem' : k0 ∈ init ++ [last] := hmem
        exact False.elim (hk0 hmem')
    · show ∀ k ∈ init ++ [last],
          mapContains (Cache.put s last (f last)).elements k = true
      intro k hk
      have hkmem : k ∈ (Cache.put s last (f last)).usage_order := by
        rw [hput_s]
        exact hk
      exact hwf_r.contains_of_mem_usage hkmem

theorem nodup_erase_filter (l : List K) (key : K) (hnd : l.Nodup) :
    l.erase key = l.filter (fun x => decide (x ≠ key)) := by
  induction l with
  | nil => rfl
  | cons a t ih =>
    obtain ⟨ha, hnd'⟩ := List.nodup_cons.mp hnd
    by_cases hak : a = key
    · subst hak
      rw [List.erase_cons_head]
      have hall : ∀ x ∈ t, decide (x ≠ a) = true := by
        intro x hx
        simp only [decide_eq_true_eq]
        intro hxa
        exact ha (hxa ▸ hx)
      rw [List.filter_cons_of_neg (by simp), (List.filter_eq_self).mpr hall]
    · rw [List.erase_cons_tail (by simpa using hak),
        List.filter_cons_of_pos (by simpa using hak), ih hnd']

theorem filter_ne_key_of_bump (l : List K) (key : K) (hnd : l.Nodup) :
    (l.erase key ++ [key]).filter (fun x => decide (x ≠ key)) =
      l.filter (fun x => decide (x ≠ key)) := by
  rw [List.filter_append, nodup_erase_filter l key hnd]
  have h1 : List.filter (fun x => decide (x ≠ key)) [key] = [] := by simp
  rw [h1, List.append_nil]
  apply (List.filter_eq_self).mpr
  intro x hx
  exact (List.mem_filter.mp hx).2

/-! ### Claim C3 -/

/-- C3: `get` on a present key returns the associated value and moves the
key to the most-recently-used (back) end of `usage_order`, leaving the
relative order of all other keys unchanged; consequently, in a capacity-3
cache, after put A, put B, put C, get A, put D the evicted key is B, not A
(A = 1, B = 2, C = 3, D = 4 below). -/
theorem C3_get_bumps_recency (K V : Type) [DecidableEq K] (c : Cache K V)
    (key : K) (hwf : WF c) (h : mapContains c.elements key = true) :
    ((Cache.get c key).2 = mapLookup c.elements key ∧
     (Cache.get c key).2.isSome = true ∧
     (Cache.get c key).1.usage_order = c.usage_order.erase key ++ [key] ∧
     (Cache.get c key).1.usage_order.getLast? = some key ∧
     (Cache.get c key).1.usage_order.filter (fun x => decide (x ≠ key)) =
       c.usage_order.filter (fun x => decide (x ≠ key))) ∧
    (mapContains (run (Cache.new Nat Nat 3)
        [Op.opPut 1 10, Op.opPut 2 20, Op.opPut 3 30, Op.opGet 1,
         Op.opPut 4 40]).elements 2 = false ∧
     mapContains (run (Cache.new Nat Nat 3)
        [Op.opPut 1 10, Op.opPut 2 20, Op.opPut 3 30, Op.opGet 1,
         Op.opPut 4 40]).elements 1 = true) := by
  have hmem : key ∈ c.usage_order := hwf.mem_usage_of_contains h
  have husage := Cache.get_hit_usage c key hmem h
  refine ⟨⟨Cache.get_hit_snd c key h, ?_, husage, ?_, ?_⟩, by decide, by decide⟩
  · rw [Cache.get_hit_snd c key h]
    simpa [mapContains] using h
  · rw [husage]
    exact List.getLast?_concat _
  · rw [husage]
    exact filter_ne_key_of_bump c.usage_order key hwf.1

/-- Concrete instantiation of C3: a capacity-3 cache holding 1, 2, 3 with
recency order [1, 2, 3]; `get 2` returns 20 and bumps key 2 to the back. -/
theorem C3_get_bumps_recency_witness :
    (Cache.get (⟨3, [(1, 10), (2, 20), (3, 30)], [1, 2, 3]⟩ : Cache Nat Nat) 2).2 =
      mapLookup [(1, 10), (2, 20), (3, 30)] 2 ∧
    (Cache.get (⟨3, [(1, 10), (2, 20), (3, 30)], [1, 2, 3]⟩ : Cache Nat Nat) 2).1.usage_order =
      ([1, 2, 3] : List Nat).erase 2 ++ [2] := by
  obtain ⟨⟨hval, _, husage, _, _⟩, _⟩ :=
    C3_get_bumps_recency Nat Nat ⟨3, [(1, 10), (2, 20), (3, 30)], [1, 2, 3]⟩ 2
      (by decide) (by decide)
  exact ⟨hval, husage⟩

/-! ### Claim C4 -/

/-- C4: `get` on an absent key returns nothing and leaves the entire cache
state unchanged: same `len()`, same `iter()` order, same recency position
of every resident key. -/
theorem C4_miss_transparency (K V : Type) [DecidableEq K] (c : Cache K V)
    (key : K) (h : mapContains c.elements key = false) :
    Cache.get c key = (c, none) ∧
    (Cache.get c key).1.elements.length = c.elements.length ∧
    Cache.iter (Cache.get c key).1 = Cache.iter c ∧
    (Cache.get c key).1.usage_order = c.usage_order := by
  have hmiss := Cache.get_miss c key h
  rw [hmiss]
  exact ⟨rfl, rfl, rfl, rfl⟩

/-- Concrete instantiation of C4: `get 5` on a cache holding 1 and 2. -/
theorem C4_miss_transparency_witness :
    Cache.get (⟨2, [(1, 10), (2, 20)], [1, 2]⟩ : Cache Nat Nat) 5 =
      (⟨2, [(1, 10), (2, 20)], [1, 2]⟩, none) :=
  (C4_miss_transparency Nat Nat ⟨2, [(1, 10), (2, 20)], [1, 2]⟩ 5 (by decide)).1

/-! ### Claim C5 -/

/-- C5: `put` on an already-present key replaces the stored value, moves
the key to the most-recently-used end, leaves `len()` unchanged and evicts
nothing (every other key keeps its value) — with no room hypothesis, so
this holds in particular when the cache is at capacity. -/
theorem C5_update_existing (K V : Type) [DecidableEq K] (c : Cache K V)
    (key : K) (value : V) (hwf : WF c)
    (h : mapContains c.elements key = true) :
    mapLookup (Cache.put c key value).elements key = some value ∧
    (Cache.put c key value).usage_order = c.usage_order.erase key ++ [key] ∧
    (Cache.put c key value).elements.length = c.elements.length ∧
    ∀ k, k ≠ key →
      mapLookup (Cache.put c key value).elements k = mapLookup c.elements k := by
  rw [Cache.put_update c key value hwf h]
  refine ⟨?_, rfl, ?_, ?_⟩
  · show mapLookup (mapInsert c.elements key value) key = some value
    rw [mapLookup_mapInsert]
    simp
  · show (mapInsert c.elements key value).length = c.elements.length
    rw [length_mapInsert, if_pos h]
  · intro k hk
    show mapLookup (mapInsert c.elements key value) k = mapLookup c.elements k
    rw [mapLookup_mapInsert, if_neg (fun heq => hk heq.symm)]

/-- Concrete instantiation of C5: updating key 1 in a full capacity-2
cache. -/
theorem C5_update_existing_witness :
    mapLookup (Cache.put (⟨2, [(1, 10), (2, 20)], [1, 2]⟩ : Cache Nat Nat) 1 99).elements 1 =
      some 99 ∧
    (Cache.put (⟨2, [(1, 10), (2, 20)], [1, 2]⟩ : Cache Nat Nat) 1 99).elements.length =
      ([(1, 10), (2, 20)] : List (Nat × Nat)).length := by
  obtain ⟨hval, _, hlen, _⟩ :=
    C5_update_existing Nat Nat ⟨2, [(1, 10), (2, 20)], [1, 2]⟩ 1 99
      (by decide) (by decide)
  exact ⟨hval, hlen⟩

/-- Concrete instantiation of C2: a full capacity-2 cache with recency
order [1, 2]; putting key 3 keeps the entry count at 2. -/
theorem C2_lru_eviction_witness :
    (Cache.put (⟨2, [(1, 10), (2, 20)], [1, 2]⟩ : Cache Nat Nat) 3 30).elements.length =
      ([(1, 10), (2, 20)] : List (Nat × Nat)).length := by
  obtain ⟨lru, rest, hur, hput, habs, hnmem, hlen⟩ :=
    (C2_lru_eviction Nat Nat ⟨2, [(1, 10), (2, 20)], [1, 2]⟩ 3 30
      (by decide) (by decide) (by decide) (by decide)).1
  exact hlen

/-! ### The persistence layer

The on-disk text format of `Cache::persist` / `Cache::load_from_reader` is
one `key<TAB>value` line per entry, written in ascending recency order.
File contents are modelled as `List Char`; `Display`/`FromStr` of the key
and value types are modelled by explicit encode/decode functions passed as
arguments. -/

/-- `CacheError` from `src/error.rs` (the `io::Error` payload carries no
information the cache inspects). -/
inductive CacheError where
  | CapacityError (msg : String)
  | IoError
  | ParseError (msg : String)
  deriving DecidableEq, Repr

/-- Model of `str::split(sep)`: `n` separators yield `n + 1` pieces. -/
def splitChar (sep : Char) : List Char → List (List Char)
  | [] => [[]]
  | c :: rest =>
    let parts := splitChar sep rest
    if c = sep then [] :: parts
    else
      match parts with
      | [] => [[c]]
      | p :: ps => (c :: p) :: ps

/-- Model of `str::lines`: split on the newline character, drop the final
empty piece produced by a trailing newline (so `""` has no lines and
`"a\n"` has one), and strip one trailing carriage return from each line. -/
def rustLines (s : List Char) : List (List Char) :=
  (if s.getLast? = some '\n' ∨ s = [] then (splitChar '\n' s).dropLast
   else splitChar '\n' s).map
    fun line => if line.getLast? = some '\r' then line.dropLast else line

/-- The `for line in content.lines()` loop of `Cache::load_from_reader`:
empty lines are skipped; a line that does not split into exactly two
tab-separated fields, or whose key or value fails to parse, aborts the
whole load with a `ParseError`; otherwise the pair is `put` into the
cache. -/
def processLines (decK : List Char → Option K) (decV : List Char → Option V) :
    List (List Char) → Cache K V → Except CacheError (Cache K V)
  | [], cache => .ok cache
  | line :: rest, cache =>
    if line.isEmpty then processLines decK decV rest cache
    else
      match splitChar '\t' line with
      | [p0, p1] =>
        match decK p0 with
        | none => .error (.ParseError
            ("Impossible de parser la clé: " ++ String.mk p0))
        | some key =>
          match decV p1 with
          | none => .error (.ParseError
              ("Impossible de parser la valeur: " ++ String.mk p1))
          | some value => processLines decK decV rest (Cache.put cache key value)
      | _ => .error (.ParseError "Format de ligne invalide")

/-- Outcome of `reader.read_to_string` on the opened file. -/
inductive ReadOutcome where
  | readErr
  | content (s : List Char)

/-- `Cache::load_from_reader`: a read failure is an `IoError`; otherwise
`Cache::new(capacity)` runs (outer `none` models its panic on capacity 0)
and the lines are replayed through `put` in file order. -/
def load_from_reader (decK : List Char → Option K) (decV : List Char → Option V)
    (r : ReadOutcome) (capacity : Nat) :
    Option (Except CacheError (Cache K V)) :=
  match r with
  | .readErr => some (.error .IoError)
  | .content s =>
    match Cache.new? K V capacity with
    | none => none
    | some cache => some (processLines decK decV (rustLines s) cache)

/-- Abstract state of the durable location seen by `new_persistent`. -/
inductive FileState where
  | absent
  | unreadableOpen
  | unreadableRead
  | readable (s : List Char)

/-- Model of `File::open`: `none` is the `Err(_)` branch, which the source
cannot tell apart from an absent file; an existing but unopenable file
takes the same branch. -/
def fileOpen : FileState → Option ReadOutcome
  | .absent => none
  | .unreadableOpen => none
  | .unreadableRead => some .readErr
  | .readable s => some (.content s)

/-- `Cache::new_persistent`: on a successful open, load from the reader;
on any open error, fall back to `Cache::new(capacity)` (whose panic on
capacity 0 is the outer `none`). -/
def new_persistent (decK : List Char → Option K) (decV : List Char → Option V)
    (capacity : Nat) (st : FileState) :
    Option (Except CacheError (Cache K V)) :=
  match fileOpen st with
  | some r => load_from_reader decK decV r capacity
  | none => (Cache.new? K V capacity).map Except.ok

/-- `Cache::persist` (success path): the file content written — for each
key of `usage_order` whose entry is in the map, the line
`key<TAB>value<NEWLINE>`, in ascending recency order. -/
def persist (encK : K → List Char) (encV : V → List Char) (c : Cache K V) :
    List Char :=
  (Cache.iter c).foldr
    (fun kv acc => encK kv.1 ++ '\t' :: (encV kv.2 ++ '\n' :: acc)) []

/-- `PersistentCache` from `src/lru/persistent.rs`: the owned cache and the
durable file, modelled by the array of key-value pairs serialized into it. -/
structure PersistentCache (K V : Type) where
  cache : Cache K V
  file : List (K × V)

namespace PersistentCache

/-- `PersistentCache::save_to_file` (success path): serializes the pairs of
the key-value map in the map's own iteration order (the source iterates
`self.cache.map` — the field holding the `HashMap`, named `elements` in
`Cache`), not the recency order. -/
def save_to_file (pc : PersistentCache K V) : PersistentCache K V :=
  { pc with file := pc.cache.elements }

/-- `CacheTrait::put` for `PersistentCache`: put into the inner cache, then
`save_to_file` (a save failure is only printed to stderr; the model keeps
the success path). -/
def put (pc : PersistentCache K V) (key : K) (value : V) :
    PersistentCache K V :=
  save_to_file { pc with cache := Cache.put pc.cache key value }

/-- `CacheTrait::get` for `PersistentCache`: delegates to the inner cache;
the file is not touched. -/
def get (pc : PersistentCache K V) (key : K) :
    PersistentCache K V × Option V :=
  ((⟨(Cache.get pc.cache key).1, pc.file⟩ : PersistentCache K V),
   (Cache.get pc.cache key).2)

end PersistentCache

/-! ### Structure of the serialized content -/

theorem splitChar_no_sep (sep : Char) (a : List Char) (h : sep ∉ a) :
    splitChar sep a = [a] := by
  induction a with
  | nil => rfl
  | cons c rest ih =>
    have hc : ¬ c = sep := fun hcs => h (by simp [hcs])
    have hrest : sep ∉ rest := fun hr => h (List.mem_cons_of_mem _ hr)
    simp only [splitChar, if_neg hc, ih hrest]

theorem splitChar_append_sep (sep : Char) (a b : List Char) (h : sep ∉ a) :
    splitChar sep (a ++ sep :: b) = a :: splitChar sep b := by
  induction a with
  | nil => simp [splitChar]
  | cons c rest ih =>
    have hc : ¬ c = sep := fun hcs => h (by simp [hcs])
    have hrest : sep ∉ rest := fun hr => h (List.mem_cons_of_mem _ hr)
    simp only [List.cons_append, splitChar, List.append_eq, if_neg hc]
    rw [ih hrest]

/-- One serialized line without its newline terminator:
`key<TAB>value` as written by `writeln!(writer, "{}\t{}", key, value)`. -/
def lineBody (encK : K → List Char) (encV : V → List Char) (kv : K × V) :
    List Char :=
  encK kv.1 ++ '\t' :: encV kv.2

theorem persist_foldr (encK : K → List Char) (encV : V → List Char)
    (c : Cache K V) :
    persist encK encV c =
      (Cache.iter c).foldr
        (fun kv acc => lineBody encK encV kv ++ '\n' :: acc) [] := by
  unfold persist
  induction Cache.iter c with
  | nil => rfl
  | cons kv rest ih =>
    simp only [List.foldr_cons, ih, lineBody, List.cons_append, List.append_assoc]

theorem splitChar_foldr_lines (encK : K → List Char) (encV : V → List Char)
    (L : List (K × V))
    (hnl : ∀ kv ∈ L, ('\n' : Char) ∉ lineBody encK encV kv) :
    splitChar '\n'
        (L.foldr (fun kv acc => lineBody encK encV kv ++ '\n' :: acc) []) =
      L.map (lineBody encK encV) ++ [[]] := by
  induction L with
  | nil => rfl
  | cons kv rest ih =>
    rw [List.foldr_cons, splitChar_append_sep _ _ _ (hnl kv (by simp)),
      ih (fun x hx => hnl x (List.mem_cons_of_mem _ hx))]
    rfl

theorem foldr_lines_getLast (encK : K → List Char) (encV : V → List Char)
    (L : List (K × V)) (hne : L ≠ []) :
    (L.foldr (fun kv acc => lineBody encK encV kv ++ '\n' :: acc)
      []).getLast? = some '\n' := by
  induction L with
  | nil => exact absurd rfl hne
  | cons kv rest ih =>
    rw [List.foldr_cons]
    cases rest with
    | nil =>
      rw [List.getLast?_append_of_ne_nil _ (by simp)]
      rfl
    | cons r rs =>
      have htail := ih (by simp)
      rw [List.getLast?_append_of_ne_nil _ (by simp)]
      rw [show ('\n' :: List.foldr
            (fun kv acc => lineBody encK encV kv ++ '\n' :: acc) [] (r :: rs)) =
          ['\n'] ++ List.foldr
            (fun kv acc => lineBody encK encV kv ++ '\n' :: acc) [] (r :: rs)
        from rfl]
      rw [List.getLast?_append_of_ne_nil _ (by simp [lineBody])]
      exact htail

theorem mem_of_getLast?_eq {α : Type} {l : List α} {a : α}
    (h : l.getLast? = some a) : a ∈ l := by
  have hx : a ∈ l.getLast? := by
    rw [h]
    rfl
  rcases List.mem_getLast?_eq_getLast hx with ⟨hne, heq⟩
  rw [heq]
  exact List.getLast_mem hne

theorem lineBody_getLast_ne_cr (encK : K → List Char) (encV : V → List Char)
    (kv : K × V) (hcr : ('\r' : Char) ∉ encV kv.2) :
    (lineBody encK encV kv).getLast? ≠ some '\r' := by
  unfold lineBody
  rw [List.getLast?_append_of_ne_nil _ (by simp)]
  intro hlast
  have hmem : ('\r' : Char) ∈ '\t' :: encV kv.2 := mem_of_getLast?_eq hlast
  rcases List.mem_cons.mp hmem with h | h
  · exact absurd h (by decide)
  · exact hcr h

theorem strip_cr_map_id (ls : List (List Char))
    (h : ∀ l ∈ ls, l.getLast? ≠ some '\r') :
    ls.map (fun line => if line.getLast? = some '\r' then line.dropLast else line) =
      ls := by
  induction ls with
  | nil => rfl
  | cons l rest ih =>
    rw [List.map_cons, if_neg (h l (by simp)),
      ih (fun x hx => h x (List.mem_cons_of_mem _ hx))]

theorem processLines_bodies (decK : List Char → Option K)
    (decV : List Char → Option V) (encK : K → List Char)
    (encV : V → List Char) (L : List (K × V)) (cache : Cache K V)
    (hgood : ∀ kv ∈ L, decK (encK kv.1) = some kv.1 ∧
      decV (encV kv.2) = some kv.2 ∧
      ('\t' : Char) ∉ encK kv.1 ∧ ('\t' : Char) ∉ encV kv.2) :
    processLines decK decV (L.map (lineBody encK encV)) cache =
      .ok (L.foldl (fun acc kv => Cache.put acc kv.1 kv.2) cache) := by
  induction L generalizing cache with
  | nil => rfl
  | cons kv rest ih =>
    obtain ⟨hk, hv, htk, htv⟩ := hgood kv (by simp)
    have hne : ¬ (lineBody encK encV kv).isEmpty = true := by
      unfold lineBody
      cases encK kv.1 <;> simp
    have hsplit : splitChar '\t' (lineBody encK encV kv) =
        [encK kv.1, encV kv.2] := by
      unfold lineBody
      rw [splitChar_append_sep '\t' _ _ htk, splitChar_no_sep '\t' _ htv]
    rw [List.map_cons]
    show processLines decK decV
        (lineBody encK encV kv :: rest.map (lineBody encK encV)) cache = _
    unfold processLines
    rw [if_neg hne, hsplit]
    simp only [hk, hv]
    rw [ih (Cache.put cache kv.1 kv.2)
      (fun x hx => hgood x (List.mem_cons_of_mem _ hx))]
    rfl

/-- Replaying a list of fresh distinct-key pairs through `put` into a cache
with enough room appends them to the map and their keys to the usage
order. -/
theorem foldl_put_fresh (c : Cache K V) (L : List (K × V))
    (hwf : WF c) (hnd : (L.map Prod.fst).Nodup)
    (hfresh : ∀ kv ∈ L, mapContains c.elements kv.1 = false)
    (hlen : c.elements.length + L.length ≤ c.capacity) :
    L.foldl (fun acc kv => Cache.put acc kv.1 kv.2) c =
      { c with elements := c.elements ++ L,
               usage_order := c.usage_order ++ L.map Prod.fst } := by
  induction L generalizing c with
  | nil => simp
  | cons kv rest ih =>
    have hk := hfresh kv (by simp)
    have hroom : c.elements.length < c.capacity := by
      simp only [List.length_cons] at hlen
      omega
    have hcap : 0 < c.capacity := by omega
    have hput := Cache.put_fresh_room c kv.1 kv.2 hk hroom
    have hwf' : WF (Cache.put c kv.1 kv.2) := wf_put hwf hcap kv.1 kv.2
    rw [hput] at hwf'
    rw [List.foldl_cons, hput, ih _ hwf' (by
        simp only [List.map_cons, List.nodup_cons] at hnd
        exact hnd.2) ?fresh ?len]
    · simp
    case fresh =>
      intro q hq
      have hqk : ¬ kv.1 = q.1 := by
        intro hkq
        simp only [List.map_cons, List.nodup_cons] at hnd
        exact hnd.1 (List.mem_map.mpr ⟨q, hq, hkq.symm⟩)
      have hq' := hfresh q (List.mem_cons_of_mem _ hq)
      show mapContains (c.elements ++ [(kv.1, kv.2)]) q.1 = false
      simp only [mapContains, mapLookup_append] at *
      rcases hlook : mapLookup c.elements q.1 with _ | v
      · simp only [hlook]
        simp [mapLookup, if_neg hqk]
      · rw [hlook] at hq'
        simp at hq'
    case len =>
      show (c.elements ++ [(kv.1, kv.2)]).length + rest.length ≤ c.capacity
      simp only [List.length_append, List.length_singleton]
      simp only [List.length_cons] at hlen
      omega

/-! ### `iter` as a map -/

theorem filterMap_lookup_keys (m : List (K × V)) (l : List K)
    (h : ∀ k ∈ l, mapContains m k = true) :
    ((l.filterMap fun key => (mapLookup m key).map fun v => (key, v)).map
      Prod.fst) = l := by
  induction l with
  | nil => rfl
  | cons k rest ih =>
    obtain ⟨v, hv⟩ := Option.isSome_iff_exists.mp (by
      simpa [mapContains] using h k (by simp))
    rw [List.filterMap_cons]
    rw [hv]
    simp only [Option.map_some']
    rw [List.map_cons]
    rw [ih (fun x hx => h x (List.mem_cons_of_mem _ hx))]

/-- Under the invariant, the keys of `iter` are exactly `usage_order`. -/
theorem iter_keys {c : Cache K V} (hwf : WF c) :
    (Cache.iter c).map Prod.fst = c.usage_order :=
  filterMap_lookup_keys c.elements c.usage_order hwf.2.2.1

/-- Under the invariant, `iter c`, read as an association list, has the
same lookups as the cache's map. -/
theorem iter_lookup {c : Cache K V} (hwf : WF c) (q : K) :
    mapLookup (Cache.iter c) q = mapLookup c.elements q := by
  by_cases hq : mapContains c.elements q = true
  · obtain ⟨v, hv⟩ := Option.isSome_iff_exists.mp (by simpa [mapContains] using hq)
    have hmemq : q ∈ c.usage_order := hwf.mem_usage_of_contains hq
    have hmem : (q, v) ∈ Cache.iter c := by
      unfold Cache.iter
      exact List.mem_filterMap.mpr ⟨q, hmemq, by rw [hv]; rfl⟩
    have hnd : ((Cache.iter c).map Prod.fst).Nodup := by
      rw [iter_keys hwf]
      exact hwf.1
    rw [hv, mapLookup_of_mem _ _ _ hnd hmem]
  · have hq' : mapContains c.elements q = false := by simpa using hq
    have hnk : q ∉ (Cache.iter c).map Prod.fst := by
      rw [iter_keys hwf]
      intro hmem
      rw [hwf.contains_of_mem_usage hmem] at hq'
      exact Bool.noConfusion hq'
    rw [mapLookup_eq_none_of_not_mem _ _ hnk]
    rcases hlook : mapLookup c.elements q with _ | v
    · rfl
    · rw [show mapContains c.elements q = true by simp [mapContains, hlook]] at hq'
      exact Bool.noConfusion hq'

theorem rustLines_foldr_lines (encK : K → List Char) (encV : V → List Char)
    (L : List (K × V))
    (hnl : ∀ kv ∈ L, ('\n' : Char) ∉ lineBody encK encV kv)
    (hcr : ∀ kv ∈ L, ('\r' : Char) ∉ encV kv.2) :
    rustLines (L.foldr (fun kv acc => lineBody encK encV kv ++ '\n' :: acc) []) =
      L.map (lineBody encK encV) := by
  cases L with
  | nil => rfl
  | cons kv rest =>
    unfold rustLines
    rw [if_pos (Or.inl (foldr_lines_getLast encK encV (kv :: rest) (by simp)))]
    rw [splitChar_foldr_lines encK encV (kv :: rest) hnl]
    rw [List.dropLast_concat]
    apply strip_cr_map_id
    intro l hl
    rcases List.mem_map.mp hl with ⟨kv', hkv', hbody⟩
    rw [← hbody]
    exact lineBody_getLast_ne_cr encK encV kv' (hcr kv' hkv')

/-! ### Claim C6 -/

/-- C6: round-trip law — for every well-formed cache (positive capacity)
whose resident keys and values serialize and deserialize faithfully under
the tab/newline line format, persisting the contents (written in ascending
recency order) and then constructing a new cache of the same capacity from
that serialized form (replaying the pairs through `put` in file order)
yields a cache with identical `iter()` order and identical lookup results
for every key. -/
theorem C6_round_trip (K V : Type) [DecidableEq K]
    (encK : K → List Char) (decK : List Char → Option K)
    (encV : V → List Char) (decV : List Char → Option V)
    (c : Cache K V) (hwf : WF c) (hcap : 0 < c.capacity)
    (hgood : ∀ kv ∈ c.elements,
      decK (encK kv.1) = some kv.1 ∧ decV (encV kv.2) = some kv.2 ∧
      ('\t' : Char) ∉ encK kv.1 ∧ ('\n' : Char) ∉ encK kv.1 ∧
      ('\t' : Char) ∉ encV kv.2 ∧ ('\n' : Char) ∉ encV kv.2 ∧
      ('\r' : Char) ∉ encV kv.2) :
    ∃ c' : Cache K V,
      new_persistent decK decV c.capacity
        (FileState.readable (persist encK encV c)) = some (.ok c') ∧
      Cache.iter c' = Cache.iter c ∧
      ∀ q, mapLookup c'.elements q = mapLookup c.elements q := by
  have hiter_sub : ∀ kv ∈ Cache.iter c, kv ∈ c.elements := by
    intro kv hkv
    unfold Cache.iter at hkv
    rcases List.mem_filterMap.mp hkv with ⟨key, _, heq⟩
    rcases hlook : mapLookup c.elements key with _ | v
    · rw [hlook] at heq
      exact Option.noConfusion heq
    · rw [hlook] at heq
      simp only [Option.map_some', Option.some.injEq] at heq
      rw [← heq]
      exact mapLookup_eq_some_mem _ _ _ hlook
  have hgood' := fun kv hkv => hgood kv (hiter_sub kv hkv)
  have hlines : rustLines (persist encK encV c) =
      (Cache.iter c).map (lineBody encK encV) := by
    rw [persist_foldr]
    apply rustLines_foldr_lines
    · intro kv hkv
      obtain ⟨_, _, _, hnk, _, hnv, _⟩ := hgood' kv hkv
      intro hmem
      unfold lineBody at hmem
      rcases List.mem_append.mp hmem with h | h
      · exact hnk h
      · rcases List.mem_cons.mp h with h | h
        · exact absurd h (by decide)
        · exact hnv h
    · intro kv hkv
      exact (hgood' kv hkv).2.2.2.2.2.2
  have hproc := processLines_bodies decK decV encK encV (Cache.iter c)
    (Cache.new K V c.capacity)
    (fun kv hkv => ⟨(hgood' kv hkv).1, (hgood' kv hkv).2.1,
      (hgood' kv hkv).2.2.1, (hgood' kv hkv).2.2.2.2.1⟩)
  have hnd : ((Cache.iter c).map Prod.fst).Nodup := by
    rw [iter_keys hwf]
    exact hwf.1
  have hiterlen : (Cache.iter c).length = c.elements.length := by
    have h1 : ((Cache.iter c).map Prod.fst).length = c.usage_order.length := by
      rw [iter_keys hwf]
    rw [List.length_map] at h1
    rw [h1, hwf.length_eq]
  have hfoldl := foldl_put_fresh (Cache.new K V c.capacity) (Cache.iter c)
    (wf_new _) hnd (fun kv _ => rfl)
    (by
      show 0 + (Cache.iter c).length ≤ c.capacity
      rw [hiterlen]
      have := hwf.2.2.2.2
      omega)
  refine ⟨⟨c.capacity, Cache.iter c, c.usage_order⟩, ?_, ?_, ?_⟩
  · show load_from_reader decK decV
      (.content (persist encK encV c)) c.capacity = _
    unfold load_from_reader
    rw [show Cache.new? K V c.capacity = some (Cache.new K V c.capacity) by
      unfold Cache.new?
      rw [if_neg (by omega)]]
    show (some (processLines decK decV (rustLines (persist encK encV c))
        (Cache.new K V c.capacity)) :
        Option (Except CacheError (Cache K V))) =
      some (.ok ⟨c.capacity, Cache.iter c, c.usage_order⟩)
    rw [hlines, hproc, hfoldl, iter_keys hwf]
    rfl
  · show c.usage_order.filterMap
        (fun key => (mapLookup (Cache.iter c) key).map fun v => (key, v)) =
      Cache.iter c
    have hfun : (fun key => (mapLookup (Cache.iter c) key).map
          fun v => (key, v)) =
        (fun key => (mapLookup c.elements key).map fun v => (key, v)) :=
      funext fun q => by rw [iter_lookup hwf q]
    rw [hfun]
    rfl
  · intro q
    show mapLookup (Cache.iter c) q = mapLookup c.elements q
    exact iter_lookup hwf q

/-- Concrete instantiation of C6: a capacity-2 cache holding keys 1 and 2
with recency order [2, 1], unary `'a'`-run encoders. -/
theorem C6_round_trip_witness :
    ∃ c' : Cache Nat Nat,
      new_persistent
          (fun s => if s.length = 0 then none else some (s.length - 1))
          (fun s => if s.length = 0 then none else some (s.length - 1))
          2
          (FileState.readable (persist
            (fun n => List.replicate (n + 1) 'a')
            (fun n => List.replicate (n + 1) 'a')
            (⟨2, [(1, 10), (2, 20)], [2, 1]⟩ : Cache Nat Nat))) =
        some (.ok c') ∧
      Cache.iter c' =
        Cache.iter (⟨2, [(1, 10), (2, 20)], [2, 1]⟩ : Cache Nat Nat) ∧
      ∀ q, mapLookup c'.elements q =
        mapLookup ([(1, 10), (2, 20)] : List (Nat × Nat)) q :=
  C6_round_trip Nat Nat
    (fun n => List.replicate (n + 1) 'a')
    (fun s => if s.length = 0 then none else some (s.length - 1))
    (fun n => List.replicate (n + 1) 'a')
    (fun s => if s.length = 0 then none else some (s.length - 1))
    ⟨2, [(1, 10), (2, 20)], [2, 1]⟩ (by decide) (by decide) (by decide)

/-! ### Claim C7 -/

/-- C7 counterexample: build the persistent cache by put 1, put 2, get 1 —
recency order is now [2, 1] — then `put 1 11`.  The file written by that
`put` holds the map's storage order `[(1,11), (2,20)]`, which differs from
the recency-order serialization `[(2,20), (1,11)]`, so `put` does not
serialize "in recency order (ascending, LRU first)" as claimed. -/
theorem C7_counterexample :
    (PersistentCache.put
        ((PersistentCache.get
          (PersistentCache.put
            (PersistentCache.put
              (⟨Cache.new Nat Nat 2, []⟩ : PersistentCache Nat Nat) 1 10)
            2 20) 1).1) 1 11).file ≠
      Cache.iter (PersistentCache.put
        ((PersistentCache.get
          (PersistentCache.put
            (PersistentCache.put
              (⟨Cache.new Nat Nat 2, []⟩ : PersistentCache Nat Nat) 1 10)
            2 20) 1).1) 1 11).cache := by
  decide

/-- C7 amended: every `put` on the persistent cache immediately rewrites
the durable file with the full current contents of the cache — but in the
key-value map's own iteration order, not in recency order — while `get`
never touches the file. -/
theorem C7_write_through_map_order (K V : Type) [DecidableEq K]
    (pc : PersistentCache K V) (key : K) (value : V) :
    (PersistentCache.put pc key value).file =
      (Cache.put pc.cache key value).elements ∧
    (PersistentCache.get pc key).1.file = pc.file :=
  ⟨rfl, rfl⟩

/-! ### Claim C8 -/

/-- C8: at the failing input — an existing durable location whose open
fails — `new_persistent` succeeds with an empty cache instead of failing
with a storage error, because `File::open`'s `Err(_)` branch cannot
distinguish a missing file from an existing unopenable one.  The other two
parts of the claim do hold: an absent location yields an empty cache, and
a read failure after a successful open yields an I/O error. -/
theorem C8_open_failure_divergence :
    new_persistent (fun _ => (none : Option Nat)) (fun _ => (none : Option Nat))
        3 FileState.unreadableOpen = some (.ok (Cache.new Nat Nat 3)) ∧
    new_persistent (fun _ => (none : Option Nat)) (fun _ => (none : Option Nat))
        3 FileState.absent = some (.ok (Cache.new Nat Nat 3)) ∧
    new_persistent (fun _ => (none : Option Nat)) (fun _ => (none : Option Nat))
        3 FileState.unreadableRead = some (.error .IoError) :=
  ⟨rfl, rfl, rfl⟩

/-! ### Claim C9 -/

/-- C9 counterexample: an interior empty line has tab-field count 1 ≠ 2 —
it is a line with a wrong field count — yet the load skips it silently
(`continue`) and succeeds with the two surrounding entries instead of
failing with a parse error. -/
theorem C9_counterexample :
    ([] : List Char) ∈ rustLines ['1', '\t', '2', '\n', '\n', '3', '\t', '4'] ∧
    (splitChar '\t' ([] : List Char)).length ≠ 2 ∧
    load_from_reader
        (fun s => if s = ['1'] then some 1 else
          if s = ['3'] then some 3 else (none : Option Nat))
        (fun s => if s = ['2'] then some 2 else
          if s = ['4'] then some 4 else (none : Option Nat))
        (.content ['1', '\t', '2', '\n', '\n', '3', '\t', '4']) 3 =
      some (.ok (⟨3, [(1, 2), (3, 4)], [1, 3]⟩ : Cache Nat Nat)) := by
  refine ⟨by decide, by decide, ?_⟩
  rfl

/-- A nonempty line the loader cannot consume: wrong tab-separated field
count, or an undecodable key or value. -/
def lineMalformed (decK : List Char → Option K) (decV : List Char → Option V)
    (line : List Char) : Bool :=
  match splitChar '\t' line with
  | [p0, p1] =>
    match decK p0 with
    | none => true
    | some _ => (decV p1).isNone
  | _ => true

theorem processLines_malformed (decK : List Char → Option K)
    (decV : List Char → Option V) (lines : List (List Char))
    (cache : Cache K V)
    (h : ∃ line ∈ lines, line ≠ [] ∧ lineMalformed decK decV line = true) :
    ∃ msg, processLines decK decV lines cache = .error (.ParseError msg) := by
  induction lines generalizing cache with
  | nil =>
    rcases h with ⟨l, hl, _⟩
    simp at hl
  | cons l rest ih =>
    by_cases hemp : l.isEmpty = true
    · have hlnil : l = [] := by
        cases l with
        | nil => rfl
        | cons c cs => simp [List.isEmpty] at hemp
      unfold processLines
      rw [if_pos hemp]
      apply ih
      rcases h with ⟨x, hx, hxne, hxmal⟩
      rcases List.mem_cons.mp hx with heq | hx'
      · exact absurd (heq ▸ hlnil) hxne
      · exact ⟨x, hx', hxne, hxmal⟩
    · unfold processLines
      rw [if_neg hemp]
      rcases hsplit : splitChar '\t' l with _ | ⟨p0, _ | ⟨p1, _ | ⟨p2, ps⟩⟩⟩
      · exact ⟨_, rfl⟩
      · exact ⟨_, rfl⟩
      · dsimp only
        rcases hk : decK p0 with _ | key
        · exact ⟨_, rfl⟩
        · dsimp only
          rcases hv : decV p1 with _ | value
          · exact ⟨_, rfl⟩
          · apply ih
            rcases h with ⟨x, hx, hxne, hxmal⟩
            rcases List.mem_cons.mp hx with heq | hx'
            · rw [heq] at hxmal
              rw [lineMalformed, hsplit] at hxmal
              dsimp only at hxmal
              rw [hk] at hxmal
              dsimp only at hxmal
              rw [hv] at hxmal
              simp at hxmal
            · exact ⟨x, hx', hxne, hxmal⟩
      · exact ⟨_, rfl⟩

/-- C9 amended: any *nonempty* malformed line or record — wrong
tab-separated field count, or a key or value that cannot be decoded —
causes the whole load to fail with a typed `ParseError`; empty lines,
however, are skipped silently by the loop's `continue` even though an
empty line has field count 1. -/
theorem C9_parse_failure (K V : Type) [DecidableEq K]
    (decK : List Char → Option K) (decV : List Char → Option V)
    (content : List Char) (capacity : Nat) (hcap : 0 < capacity)
    (h : ∃ line ∈ rustLines content, line ≠ [] ∧
      lineMalformed decK decV line = true) :
    ∃ msg, load_from_reader decK decV (.content content) capacity =
      some (.error (.ParseError msg)) := by
  obtain ⟨msg, hmsg⟩ := processLines_malformed decK decV (rustLines content)
    (Cache.new K V capacity) h
  refine ⟨msg, ?_⟩
  unfold load_from_reader
  rw [show Cache.new? K V capacity = some (Cache.new K V capacity) by
    unfold Cache.new?
    rw [if_neg (by omega)]]
  show some (processLines decK decV (rustLines content)
      (Cache.new K V capacity)) = _
  rw [hmsg]

/-- Concrete instantiation of the amended C9: the single line `x` has one
tab-field, so the load fails with a parse error. -/
theorem C9_parse_failure_witness :
    0 < 3 ∧
    ∃ msg, load_from_reader (fun _ => (none : Option Nat))
        (fun _ => (none : Option Nat)) (.content ['x']) 3 =
      some (.error (.ParseError msg)) :=
  ⟨by decide,
   C9_parse_failure Nat Nat (fun _ => none) (fun _ => none) ['x'] 3
     (by decide) ⟨['x'], by decide, by decide, by decide⟩⟩

/-! ### Claim C10 -/

/-- Whether a constructor outcome is `Err(CacheError::CapacityError _)`. -/
def isCapacityErrorOutcome : Option (Except CacheError (Cache K V)) → Bool
  | some (.error (.CapacityError _)) => true
  | _ => false

theorem processLines_no_capacity_error (decK : List Char → Option K)
    (decV : List Char → Option V) (lines : List (List Char))
    (cache : Cache K V) :
    isCapacityErrorOutcome (some (processLines decK decV lines cache)) =
      false := by
  induction lines generalizing cache with
  | nil => rfl
  | cons l rest ih =>
    by_cases hemp : l.isEmpty = true
    · unfold processLines
      rw [if_pos hemp]
      exact ih cache
    · unfold processLines
      rw [if_neg hemp]
      rcases hsplit : splitChar '\t' l with _ | ⟨p0, _ | ⟨p1, _ | ⟨p2, ps⟩⟩⟩
      · rfl
      · rfl
      · dsimp only
        rcases hk : decK p0 with _ | key
        · rfl
        · dsimp only
          rcases hv : decV p1 with _ | value
          · rfl
          · exact ih (Cache.put cache key value)
      · rfl

/-- C10: `new_persistent` called with capacity 0 on an absent or readable
durable location panics inside `Cache::new`'s zero-capacity check (the
model's `none`) instead of returning an `Err`; and no constructor path
ever produces the `CacheError::CapacityError` variant. -/
theorem C10_zero_capacity_panics (K V : Type) [DecidableEq K]
    (decK : List Char → Option K) (decV : List Char → Option V) :
    new_persistent decK decV 0 FileState.absent = none ∧
    (∀ s, new_persistent decK decV 0 (FileState.readable s) = none) ∧
    ∀ capacity st,
      isCapacityErrorOutcome (new_persistent decK decV capacity st) =
        false := by
  refine ⟨rfl, fun s => rfl, ?_⟩
  intro capacity st
  cases st with
  | absent =>
    by_cases h0 : capacity = 0 <;>
      simp [new_persistent, fileOpen, Cache.new?, h0, isCapacityErrorOutcome]
  | unreadableOpen =>
    by_cases h0 : capacity = 0 <;>
      simp [new_persistent, fileOpen, Cache.new?, h0, isCapacityErrorOutcome]
  | unreadableRead => rfl
  | readable s =>
    by_cases h0 : capacity = 0
    · simp [new_persistent, fileOpen, load_from_reader, Cache.new?, h0,
        isCapacityErrorOutcome]
    · show isCapacityErrorOutcome
        (load_from_reader decK decV (.content s) capacity) = false
      unfold load_from_reader
      rw [show Cache.new? K V capacity = some (Cache.new K V capacity) by
        unfold Cache.new?
        rw [if_neg h0]]
      exact processLines_no_capacity_error decK decV (rustLines s)
        (Cache.new K V capacity)

end LruCache
